import Mathlib

/-!
Verification of the mini RL library of the Decision-Transformer data
generator: the dynamic-programming policy solvers (`policies.py`), the
random MDP factory (`random_mdp_factory.py`) and the dataset creator
(`data.py`), embedded shallowly.  Real arithmetic is embedded as `ℚ`
(the code's float arithmetic, taken exactly), states and actions as `Nat`.
-/

namespace MiniRL

/-- `enums.MDPTransitionType` of the library. -/
inductive MDPTransitionType where
  | S_DETERMINISTIC
  | S_PROBABILISTIC
  | SA_DETERMINISTIC
  | SA_PROBABILISTIC
  | SAS
deriving DecidableEq, Repr

/-- `enums.MDPRewardType` of the library. -/
inductive MDPRewardType where
  | S
  | SA
  | SAS
  | SASR
deriving DecidableEq, Repr

/-- The solver-facing view of `mdp.MDP`: the configuration fields read by
`DeterministicMDPPolicy` together with its transition and reward callbacks.
The Python `transition_function` returns a value whose type depends on the
transition kind (an int, a dict of probabilities, or a float); the embedding
carries one typed field per kind and the kind selects which one is read,
mirroring the dispatch in `_update_value`.  Likewise for `reward_function`:
a scalar for kinds `S`/`SA`/`SAS` (called with `r = None`), a probability
for kind `SASR` (called with an actual reward value). -/
structure MDPModel where
  n_states : Nat
  n_actions : Nat
  transition_function_type : MDPTransitionType
  reward_function_type : MDPRewardType
  /-- deterministic kinds: `transition_function(s, a, None)` as an int -/
  detTransition : Nat → Nat → Nat
  /-- probabilistic kinds: `transition_function(s, a, None)` as a dict,
  embedded as its list of `(next_s, probability)` items -/
  probTransition : Nat → Nat → List (Nat × ℚ)
  /-- kind `SAS`: `transition_function(s, a, next_s)` as a float -/
  sasTransition : Nat → Nat → Nat → ℚ
  /-- reward kinds other than `SASR`: `reward_function(s, a, next_s, None)` -/
  rewardScalar : Nat → Nat → Nat → ℚ
  /-- reward kind `SASR`: `reward_function(s, a, next_s, r)` -/
  rewardProb : Nat → Nat → Nat → ℚ → ℚ
  /-- `model.all_rewards` -/
  all_rewards : List ℚ

/-- The inner helper `get_value(s, a, next_s)` of
`DeterministicMDPPolicy._update_value` (`policies.py` lines 48-60), for a
current value table `V` and discount `γ`. -/
def get_value (m : MDPModel) (γ : ℚ) (V : Nat → ℚ) (s a next_s : Nat) : ℚ :=
  if m.reward_function_type ≠ MDPRewardType.SASR then
    m.rewardScalar s a next_s + γ * V next_s
  else
    (m.all_rewards.map fun r => m.rewardProb s a next_s r * (r + γ * V next_s)).sum

/-- `DeterministicMDPPolicy._update_value(s, a)` (`policies.py` lines 47-80):
dispatch on the transition kind, accumulating `v` as in the source. -/
def update_value (m : MDPModel) (γ : ℚ) (V : Nat → ℚ) (s a : Nat) : ℚ :=
  match m.transition_function_type with
  | .S_DETERMINISTIC | .SA_DETERMINISTIC =>
      get_value m γ V s a (m.detTransition s a)
  | .S_PROBABILISTIC | .SA_PROBABILISTIC =>
      ((m.probTransition s a).map fun e => e.2 * get_value m γ V s a e.1).sum
  | .SAS =>
      ((List.range m.n_states).map fun next_s =>
        m.sasTransition s a next_s * get_value m γ V s a next_s).sum

/-- The transition probability `P(next_s | s, a)` that the spec formula for
`Q(s, a)` refers to, read off the model uniformly: a point mass on the single
successor for deterministic kinds, the total probability carried by the
returned dict for a given key for probabilistic kinds, and the tensor entry
for kind `SAS`. -/
def transProbSpec (m : MDPModel) (s a next_s : Nat) : ℚ :=
  match m.transition_function_type with
  | .S_DETERMINISTIC | .SA_DETERMINISTIC =>
      if next_s = m.detTransition s a then 1 else 0
  | .S_PROBABILISTIC | .SA_PROBABILISTIC =>
      (((m.probTransition s a).filter fun e => e.1 = next_s).map Prod.snd).sum
  | .SAS => m.sasTransition s a next_s

/-- The inner aggregation of the spec formula: `Σ_r P(r|s,a,s')·(r + γ·V(s'))`
for reward kind `SASR`, degenerating to the scalar `r + γ·V(s')` for the
scalar reward kinds. -/
def innerRewardSpec (m : MDPModel) (γ : ℚ) (V : Nat → ℚ) (s a next_s : Nat) : ℚ :=
  match m.reward_function_type with
  | .SASR =>
      (m.all_rewards.map fun r => m.rewardProb s a next_s r * (r + γ * V next_s)).sum
  | _ => m.rewardScalar s a next_s + γ * V next_s

/-- The spec's Q-value formula, written as the outer sum over all states:
`Q(s,a) = Σ_{s'} P(s'|s,a) · Σ_r P(r|s,a,s') · (r + γ·V(s'))`. -/
def Q_spec (m : MDPModel) (γ : ℚ) (V : Nat → ℚ) (s a : Nat) : ℚ :=
  ((List.range m.n_states).map fun next_s =>
    transProbSpec m s a next_s * innerRewardSpec m γ V s a next_s).sum

theorem list_sum_map_add {α : Type} (l : List α) (f g : α → ℚ) :
    (l.map fun x => f x + g x).sum = (l.map f).sum + (l.map g).sum := by
  induction l with
  | nil => simp
  | cons x xs ih => simp only [List.map_cons, List.sum_cons, ih]; ring

theorem sum_indicator_range (n d : Nat) (f : Nat → ℚ) :
    ((List.range n).map fun ns => (if ns = d then (1 : ℚ) else 0) * f ns).sum
      = if d < n then f d else 0 := by
  induction n with
  | zero => simp
  | succ n ih =>
    rw [List.range_succ, List.map_append, List.sum_append, ih]
    rcases Nat.lt_trichotomy d n with h | h | h
    · have h1 : n ≠ d := Nat.ne_of_gt h
      simp [h1, h, Nat.lt_succ_of_lt h]
    · subst h
      simp
    · have h1 : ¬ d < n := Nat.not_lt.mpr (Nat.le_of_lt h)
      have h2 : n ≠ d := Nat.ne_of_lt h
      have h3 : ¬ d < n + 1 := Nat.not_lt.mpr h
      simp [h1, h2, h3]

theorem get_value_eq_innerRewardSpec (m : MDPModel) (γ : ℚ) (V : Nat → ℚ)
    (s a next_s : Nat) :
    get_value m γ V s a next_s = innerRewardSpec m γ V s a next_s := by
  cases h : m.reward_function_type <;> simp [get_value, innerRewardSpec, h]

theorem sum_over_entries (entries : List (Nat × ℚ)) (n : Nat) (f : Nat → ℚ)
    (h : ∀ e ∈ entries, e.1 < n) :
    ((List.range n).map fun ns =>
      ((entries.filter fun e => e.1 = ns).map Prod.snd).sum * f ns).sum
    = (entries.map fun e => e.2 * f e.1).sum := by
  induction entries with
  | nil => simp
  | cons e rest ih =>
    have hsplit : ∀ ns, ((((e :: rest).filter fun x => x.1 = ns).map Prod.snd).sum : ℚ)
        = (if ns = e.1 then e.2 else 0)
          + ((rest.filter fun x => x.1 = ns).map Prod.snd).sum := by
      intro ns
      by_cases hc : e.1 = ns
      · simp [List.filter_cons, hc]
      · have hc' : ¬ ns = e.1 := fun hh => hc hh.symm
        simp [List.filter_cons, hc, hc']
    have hdistrib : ∀ ns,
        ((((e :: rest).filter fun x => x.1 = ns).map Prod.snd).sum : ℚ) * f ns
        = (if ns = e.1 then (1 : ℚ) else 0) * (e.2 * f ns)
          + ((rest.filter fun x => x.1 = ns).map Prod.snd).sum * f ns := by
      intro ns
      rw [hsplit, add_mul]
      by_cases hc : ns = e.1 <;> simp [hc]
    calc ((List.range n).map fun ns =>
            (((e :: rest).filter fun x => x.1 = ns).map Prod.snd).sum * f ns).sum
        = ((List.range n).map fun ns =>
            (if ns = e.1 then (1 : ℚ) else 0) * (e.2 * f ns)
            + ((rest.filter fun x => x.1 = ns).map Prod.snd).sum * f ns).sum := by
          exact congrArg List.sum (List.map_congr_left fun ns _ => hdistrib ns)
      _ = ((List.range n).map fun ns =>
            (if ns = e.1 then (1 : ℚ) else 0) * (e.2 * f ns)).sum
          + ((List.range n).map fun ns =>
            ((rest.filter fun x => x.1 = ns).map Prod.snd).sum * f ns).sum := by
          exact list_sum_map_add _ _ _
      _ = e.2 * f e.1 + (rest.map fun x => x.2 * f x.1).sum := by
          rw [sum_indicator_range, ih fun x hx => h x (List.mem_cons_of_mem e hx)]
          have he : e.1 < n := h e (List.mem_cons_self e rest)
          rw [if_pos he]
      _ = ((e :: rest).map fun x => x.2 * f x.1).sum := by
          simp

/-- C3: for every state `s` and action `a`, `_update_value(s, a)` computes
`Q(s,a) = Σ_{s'} P(s'|s,a) · Σ_r P(r|s,a,s') · (r + γ·V(s'))`, where the
outer sum degenerates to the single successor for deterministic transition
kinds and the inner sum degenerates to the scalar reward for non-`SASR`
reward kinds.  The hypotheses say the model's successors are genuine states:
the deterministic successor is below `n_states` and every key of a
probabilistic transition dict is below `n_states`. -/
theorem update_value_eq_Q_spec (m : MDPModel) (γ : ℚ) (V : Nat → ℚ) (s a : Nat)
    (hdet : m.detTransition s a < m.n_states)
    (hprob : ∀ e ∈ m.probTransition s a, e.1 < m.n_states) :
    update_value m γ V s a = Q_spec m γ V s a := by
  cases htt : m.transition_function_type with
  | S_DETERMINISTIC | SA_DETERMINISTIC =>
    simp only [update_value, Q_spec, transProbSpec, htt]
    rw [show ((List.range m.n_states).map fun next_s =>
          (if next_s = m.detTransition s a then (1 : ℚ) else 0)
            * innerRewardSpec m γ V s a next_s).sum
        = if m.detTransition s a < m.n_states
          then innerRewardSpec m γ V s a (m.detTransition s a) else 0
      from sum_indicator_range _ _ _]
    rw [if_pos hdet, get_value_eq_innerRewardSpec]
  | S_PROBABILISTIC | SA_PROBABILISTIC =>
    simp only [update_value, Q_spec, transProbSpec, htt]
    rw [sum_over_entries _ _ _ hprob]
    exact congrArg List.sum
      (List.map_congr_left fun e _ => by rw [get_value_eq_innerRewardSpec])
  | SAS =>
    simp only [update_value, Q_spec, transProbSpec, htt]
    exact congrArg List.sum
      (List.map_congr_left fun ns _ => by rw [get_value_eq_innerRewardSpec])

/-- A small concrete model used to instantiate hypotheses of the solver
theorems. -/
def exModel : MDPModel where
  n_states := 2
  n_actions := 2
  transition_function_type := .SA_PROBABILISTIC
  reward_function_type := .SASR
  detTransition := fun _ _ => 1
  probTransition := fun _ _ => [(0, 1/2), (1, 1/2)]
  sasTransition := fun _ _ _ => 1/2
  rewardScalar := fun _ _ _ => 1
  rewardProb := fun _ _ _ _ => 1/2
  all_rewards := [0, 1]

/-- C3 witness: the equivalence holds at the concrete model. -/
theorem update_value_eq_Q_spec_witness :
    exModel.detTransition 0 0 < exModel.n_states ∧
    update_value exModel (1/2) (fun _ => 1) 0 0 = Q_spec exModel (1/2) (fun _ => 1) 0 0 :=
  ⟨by decide, update_value_eq_Q_spec exModel (1/2) (fun _ => 1) 0 0 (by decide) (by decide)⟩

/-- `np.max` of a 1-D float array (the source only applies it to nonempty
arrays; the empty case is given a junk value). -/
def npMax : List ℚ → ℚ
  | [] => 0
  | x :: xs => xs.foldl max x

/-- Scan of `np.argmax`: best `(index, value)` so far, index of the next
element, remaining elements; the best is replaced only on a strict
increase, so the first maximal entry wins. -/
def npArgmaxAux (best : Nat × ℚ) (i : Nat) : List ℚ → Nat × ℚ
  | [] => best
  | x :: xs => npArgmaxAux (if x > best.2 then (i, x) else best) (i + 1) xs

/-- `np.argmax` of a 1-D float array: index of the first maximal entry. -/
def npArgmax : List ℚ → Nat
  | [] => 0
  | x :: xs => (npArgmaxAux (0, x) 1 xs).1

theorem npArgmaxAux_snd (xs : List ℚ) (best : Nat × ℚ) (i : Nat) :
    (npArgmaxAux best i xs).2 = xs.foldl max best.2 := by
  induction xs generalizing best i with
  | nil => rfl
  | cons x xs ih =>
    rw [npArgmaxAux, ih, List.foldl_cons]
    by_cases h : x > best.2
    · rw [if_pos h, max_eq_right (le_of_lt h)]
    · rw [if_neg h, max_eq_left (not_lt.mp h)]

theorem le_foldl_max (xs : List ℚ) (b : ℚ) : b ≤ xs.foldl max b := by
  induction xs generalizing b with
  | nil => exact le_refl b
  | cons x xs ih => exact le_trans (le_max_left b x) (ih (max b x))

theorem mem_le_foldl_max (xs : List ℚ) : ∀ b : ℚ, ∀ y ∈ xs, y ≤ xs.foldl max b := by
  induction xs with
  | nil => intro b y hy; cases hy
  | cons x xs ih =>
    intro b y hy
    rcases List.mem_cons.mp hy with h | h
    · subst h
      exact le_trans (le_max_right b y) (le_foldl_max xs _)
    · exact ih (max b x) y h

theorem npArgmaxAux_fst (xs : List ℚ) (bi i : Nat) (bv : ℚ) :
    (npArgmaxAux (bi, bv) i xs).1 = bi
      ∧ (npArgmaxAux (bi, bv) i xs).2 = bv ∧ (∀ y ∈ xs, y ≤ bv)
    ∨ ∃ j, j < xs.length
        ∧ (npArgmaxAux (bi, bv) i xs).1 = i + j
        ∧ xs[j]? = some (npArgmaxAux (bi, bv) i xs).2
        ∧ bv < (npArgmaxAux (bi, bv) i xs).2
        ∧ ∀ k y, k < j → xs[k]? = some y → y < (npArgmaxAux (bi, bv) i xs).2 := by
  induction xs generalizing bi i bv with
  | nil => exact Or.inl ⟨rfl, rfl, by intro y hy; cases hy⟩
  | cons x xs ih =>
    by_cases hx : x > bv
    · have hrw : npArgmaxAux (bi, bv) i (x :: xs) = npArgmaxAux (i, x) (i + 1) xs := by
        rw [npArgmaxAux, if_pos hx]
      rw [hrw]
      rcases ih i (i + 1) x with ⟨h1, h2, h3⟩ | ⟨j, hj, h1, h2, h3, h4⟩
      · refine Or.inr ⟨0, Nat.succ_pos _, by rw [h1, Nat.add_zero], ?_, ?_, ?_⟩
        · rw [List.getElem?_cons_zero, h2]
        · rw [h2]; exact hx
        · intro k y hk0 _; omega
      · refine Or.inr ⟨j + 1, Nat.succ_lt_succ hj, by rw [h1]; omega, ?_, ?_, ?_⟩
        · rw [List.getElem?_cons_succ]; exact h2
        · exact lt_trans hx h3
        · intro k y hkj hky
          cases k with
          | zero =>
            rw [List.getElem?_cons_zero] at hky
            cases hky
            exact h3
          | succ k =>
            rw [List.getElem?_cons_succ] at hky
            exact h4 k y (Nat.lt_of_succ_lt_succ hkj) hky
    · have hrw : npArgmaxAux (bi, bv) i (x :: xs) = npArgmaxAux (bi, bv) (i + 1) xs := by
        rw [npArgmaxAux, if_neg hx]
      rw [hrw]
      rcases ih bi (i + 1) bv with ⟨h1, h2, h3⟩ | ⟨j, hj, h1, h2, h3, h4⟩
      · refine Or.inl ⟨h1, h2, ?_⟩
        intro y hy
        rcases List.mem_cons.mp hy with h | h
        · exact h ▸ not_lt.mp hx
        · exact h3 y h
      · refine Or.inr ⟨j + 1, Nat.succ_lt_succ hj, by rw [h1]; omega, ?_, ?_, ?_⟩
        · rw [List.getElem?_cons_succ]; exact h2
        · exact h3
        · intro k y hkj hky
          cases k with
          | zero =>
            rw [List.getElem?_cons_zero] at hky
            cases hky
            exact lt_of_le_of_lt (not_lt.mp hx) h3
          | succ k =>
            rw [List.getElem?_cons_succ] at hky
            exact h4 k y (Nat.lt_of_succ_lt_succ hkj) hky

theorem getElem?_range_map {α : Type} (f : Nat → α) (n k : Nat) (h : k < n) :
    ((List.range n).map f)[k]? = some (f k) := by
  rw [List.getElem?_map, List.getElem?_range h]
  rfl

/-- Characterization of `npMax`/`npArgmax` on the array
`[f 0, ..., f (n-1)]`: the max bounds every entry, the argmax is in range,
attains the max, and every entry strictly before it is strictly smaller
(ties are broken by the lowest index). -/
theorem npArgmax_range_spec (f : Nat → ℚ) (n : Nat) (hn : 0 < n) :
    (∀ a, a < n → f a ≤ npMax ((List.range n).map f))
    ∧ npArgmax ((List.range n).map f) < n
    ∧ f (npArgmax ((List.range n).map f)) = npMax ((List.range n).map f)
    ∧ ∀ b, b < npArgmax ((List.range n).map f) →
        f b < npMax ((List.range n).map f) := by
  obtain ⟨m, rfl⟩ : ∃ m, n = m + 1 := ⟨n - 1, (Nat.succ_pred_eq_of_pos hn).symm⟩
  obtain ⟨x, xs, hcons⟩ : ∃ x xs, (List.range (m + 1)).map f = x :: xs :=
    ⟨f 0, ((List.range m).map Nat.succ).map f, by rw [List.range_succ_eq_map, List.map_cons]⟩
  have hx : x = f 0 := by
    have := hcons
    rw [List.range_succ_eq_map, List.map_cons] at this
    exact (List.cons.injEq _ _ _ _ ▸ this).1.symm
  have hlen : (x :: xs).length = m + 1 := by
    rw [← hcons, List.length_map, List.length_range]
  have hget : ∀ k, k < m + 1 → (x :: xs)[k]? = some (f k) := by
    intro k hk
    rw [← hcons]
    exact getElem?_range_map f (m + 1) k hk
  have hmem : ∀ a, a < m + 1 → f a ≤ npMax (x :: xs) := by
    intro a ha
    have : f a ∈ x :: xs := by
      rw [← hcons]
      exact List.mem_map_of_mem f (List.mem_range.mpr ha)
    rcases List.mem_cons.mp this with h | h
    · rw [h, npMax]; exact le_foldl_max xs _
    · rw [npMax]; exact mem_le_foldl_max xs x _ h
  have hsnd : (npArgmaxAux (0, x) 1 xs).2 = npMax (x :: xs) := by
    rw [npArgmaxAux_snd]; rfl
  have hargmax : npArgmax (x :: xs) = (npArgmaxAux (0, x) 1 xs).1 := rfl
  rw [hcons]
  rcases npArgmaxAux_fst xs 0 1 x with ⟨h1, h2, _⟩ | ⟨j, hj, h1, h2, h3, h4⟩
  · refine ⟨hmem, ?_, ?_, ?_⟩
    · rw [hargmax, h1]; exact Nat.succ_pos _
    · rw [hargmax, h1, ← hx, ← hsnd, h2]
    · intro b hb
      rw [hargmax, h1] at hb
      omega
  · have hjlen : 1 + j < m + 1 := by
      have := hj
      rw [← Nat.succ_le_iff] at this
      have hxs : xs.length = m := by
        have := hlen
        simp only [List.length_cons] at this
        omega
      omega
    refine ⟨hmem, ?_, ?_, ?_⟩
    · rw [hargmax, h1]; exact hjlen
    · rw [hargmax, h1, Nat.add_comm 1 j]
      have hg : (x :: xs)[j + 1]? = some (f (j + 1)) := by
        have := hget (1 + j) hjlen
        rwa [Nat.add_comm 1 j] at this
      have hg' : (x :: xs)[j + 1]? = some ((npArgmaxAux (0, x) 1 xs).2) := by
        rw [List.getElem?_cons_succ]; exact h2
      rw [hg] at hg'
      rw [← hsnd]
      exact Option.some.inj hg'
    · intro b hb
      rw [hargmax, h1] at hb
      rw [← hsnd]
      cases b with
      | zero => rw [← hx]; exact h3
      | succ b =>
        have hblen : b + 1 < m + 1 := by omega
        have hg : (x :: xs)[b + 1]? = some (f (b + 1)) := hget (b + 1) hblen
        rw [List.getElem?_cons_succ] at hg
        exact h4 b (f (b + 1)) (by omega) hg

/-- The mutable state of a `DeterministicMDPPolicy`: the `_values` and
`_policy` arrays, embedded as total maps on state indices. -/
structure SolverState where
  values : Nat → ℚ
  policy : Nat → Nat

/-- Assignment to one cell of a NumPy array. -/
def setIdx {α : Type} (f : Nat → α) (i : Nat) (x : α) : Nat → α :=
  fun j => if j = i then x else f j

theorem setIdx_same {α : Type} (f : Nat → α) (i : Nat) (x : α) :
    setIdx f i x i = x := by
  simp [setIdx]

theorem setIdx_other {α : Type} (f : Nat → α) (i j : Nat) (x : α) (h : j ≠ i) :
    setIdx f i x j = f j := by
  simp [setIdx, h]

/-- `DeterministicMDPPolicy.__init__`: `_values = np.zeros(n_states)`,
`_policy = np.zeros(n_states, dtype=int)`. -/
def initState : SolverState := ⟨fun _ => 0, fun _ => 0⟩

/-- The body of the per-state update in `ValueIteration.fit`
(`policies.py` lines 94-101), acting on the pair (solver state, delta):
build the array of Q-values over all actions, write its max into
`_values[s]` and its argmax into `_policy[s]`, and fold
`|v - _values[s]|` into delta. -/
def viStep (m : MDPModel) (γ : ℚ) (p : SolverState × ℚ) (s : Nat) : SolverState × ℚ :=
  let v := p.1.values s
  let vals := (List.range m.n_actions).map fun a => update_value m γ p.1.values s a
  (⟨setIdx p.1.values s (npMax vals), setIdx p.1.policy s (npArgmax vals)⟩,
   max p.2 |v - npMax vals|)

/-- One full sweep of `ValueIteration.fit` (the body of the while loop,
lines 92-101): delta is reset to 0, then every state is processed in
order. -/
def viSweep (m : MDPModel) (γ : ℚ) (st : SolverState) : SolverState × ℚ :=
  (List.range m.n_states).foldl (viStep m γ) (st, 0)

/-- The while loop of `ValueIteration.fit` (lines 90-101), fuel-indexed.
The initial `delta = eps + 1` makes the guard `delta > eps` hold on entry,
so the loop always runs a first sweep and then repeats while the sweep's
delta exceeds `eps`; `none` means the fuel ran out before convergence. -/
def viLoop (m : MDPModel) (γ eps : ℚ) : Nat → SolverState → Option SolverState
  | 0, _ => none
  | fuel + 1, st =>
      let p := viSweep m γ st
      if p.2 > eps then viLoop m γ eps fuel p.1 else some p.1

/-- `ValueIteration.fit`, started from the freshly initialized solver. -/
def viFit (m : MDPModel) (γ eps : ℚ) (fuel : Nat) : Option SolverState :=
  viLoop m γ eps fuel initState

theorem viStep_values_same (m : MDPModel) (γ : ℚ) (p : SolverState × ℚ) (s : Nat) :
    (viStep m γ p s).1.values s
      = npMax ((List.range m.n_actions).map fun a => update_value m γ p.1.values s a) := by
  simp [viStep, setIdx_same]

theorem viStep_policy_same (m : MDPModel) (γ : ℚ) (p : SolverState × ℚ) (s : Nat) :
    (viStep m γ p s).1.policy s
      = npArgmax ((List.range m.n_actions).map fun a => update_value m γ p.1.values s a) := by
  simp [viStep, setIdx_same]

theorem viStep_values_ne (m : MDPModel) (γ : ℚ) (p : SolverState × ℚ) (s t : Nat)
    (h : t ≠ s) : (viStep m γ p s).1.values t = p.1.values t := by
  simp [viStep, setIdx_other _ _ _ _ h]

theorem viStep_policy_ne (m : MDPModel) (γ : ℚ) (p : SolverState × ℚ) (s t : Nat)
    (h : t ≠ s) : (viStep m γ p s).1.policy t = p.1.policy t := by
  simp [viStep, setIdx_other _ _ _ _ h]

theorem viStep_delta (m : MDPModel) (γ : ℚ) (p : SolverState × ℚ) (s : Nat) :
    (viStep m γ p s).2 = max p.2 |p.1.values s - (viStep m γ p s).1.values s| := by
  rw [viStep_values_same]
  rfl

theorem viFold_untouched (m : MDPModel) (γ : ℚ) (L : List Nat) (s : Nat) :
    ∀ p : SolverState × ℚ, s ∉ L →
      (L.foldl (viStep m γ) p).1.values s = p.1.values s
      ∧ (L.foldl (viStep m γ) p).1.policy s = p.1.policy s := by
  induction L with
  | nil => intro p _; exact ⟨rfl, rfl⟩
  | cons t L ih =>
    intro p hs
    have hst : s ∉ L := fun h => hs (List.mem_cons_of_mem t h)
    have hne : s ≠ t := fun h => hs (h ▸ List.mem_cons_self t L)
    obtain ⟨h1, h2⟩ := ih (viStep m γ p t) hst
    rw [List.foldl_cons]
    exact ⟨by rw [h1, viStep_values_ne m γ p t s hne],
           by rw [h2, viStep_policy_ne m γ p t s hne]⟩

theorem viFold_delta (m : MDPModel) (γ : ℚ) (L : List Nat) :
    ∀ p : SolverState × ℚ, L.Nodup →
      (L.foldl (viStep m γ) p).2
        = (L.map fun s =>
            |p.1.values s - (L.foldl (viStep m γ) p).1.values s|).foldl max p.2 := by
  induction L with
  | nil => intro p _; rfl
  | cons s L ih =>
    intro p hnd
    obtain ⟨hs, hnd'⟩ := List.nodup_cons.mp hnd
    rw [List.foldl_cons, List.map_cons, List.foldl_cons, ih (viStep m γ p s) hnd']
    have hmapeq : (L.map fun t =>
          |(viStep m γ p s).1.values t
            - (L.foldl (viStep m γ) (viStep m γ p s)).1.values t|)
        = L.map fun t =>
          |p.1.values t - (L.foldl (viStep m γ) (viStep m γ p s)).1.values t| := by
      apply List.map_congr_left
      intro t ht
      rw [viStep_values_ne m γ p s t (fun h => hs (h ▸ ht))]
    have hsv : (L.foldl (viStep m γ) (viStep m γ p s)).1.values s
        = (viStep m γ p s).1.values s :=
      (viFold_untouched m γ L s (viStep m γ p s) hs).1
    rw [hmapeq, viStep_delta, hsv]

theorem viLoop_succ (m : MDPModel) (γ eps : ℚ) (fuel : Nat) (st : SolverState) :
    viLoop m γ eps (fuel + 1) st
      = if (viSweep m γ st).2 > eps then viLoop m γ eps fuel (viSweep m γ st).1
        else some (viSweep m γ st).1 := rfl

theorem viLoop_some (m : MDPModel) (γ eps : ℚ) :
    ∀ fuel (st out : SolverState), viLoop m γ eps fuel st = some out →
      ∃ st', (viSweep m γ st').1 = out ∧ (viSweep m γ st').2 ≤ eps := by
  intro fuel
  induction fuel with
  | zero => intro st out h; cases h
  | succ fuel ih =>
    intro st out h
    rw [viLoop_succ] at h
    by_cases hc : (viSweep m γ st).2 > eps
    · rw [if_pos hc] at h
      exact ih _ _ h
    · rw [if_neg hc] at h
      exact ⟨st, Option.some.inj h, not_lt.mp hc⟩

/-- C2: `ValueIteration.fit` starts from `V = 0` for all states; each
per-state update writes `max_a Q(s,a)` into `V(s)` and the lowest-index
argmax into `policy(s)`, folding `|V_old(s) - V_new(s)|` into delta, and
leaves other states untouched; a full sweep's delta is
`max_s |V_old(s) - V_new(s)|`; and the loop runs a further sweep exactly
when the delta of the last sweep exceeds `eps`, stopping exactly when it
is `≤ eps`. -/
theorem valueIteration_fit_spec (m : MDPModel) (γ eps : ℚ) (hA : 0 < m.n_actions) :
    (∀ s, initState.values s = 0)
    ∧ (∀ fuel, viFit m γ eps fuel = viLoop m γ eps fuel initState)
    ∧ (∀ (p : SolverState × ℚ) (s : Nat),
        (∀ a, a < m.n_actions →
          update_value m γ p.1.values s a ≤ (viStep m γ p s).1.values s)
        ∧ (viStep m γ p s).1.policy s < m.n_actions
        ∧ update_value m γ p.1.values s ((viStep m γ p s).1.policy s)
            = (viStep m γ p s).1.values s
        ∧ (∀ b, b < (viStep m γ p s).1.policy s →
            update_value m γ p.1.values s b < (viStep m γ p s).1.values s)
        ∧ (viStep m γ p s).2 = max p.2 |p.1.values s - (viStep m γ p s).1.values s|
        ∧ ∀ t, t ≠ s → (viStep m γ p s).1.values t = p.1.values t
            ∧ (viStep m γ p s).1.policy t = p.1.policy t)
    ∧ (∀ st : SolverState, (viSweep m γ st).2
        = ((List.range m.n_states).map fun s =>
            |st.values s - (viSweep m γ st).1.values s|).foldl max 0)
    ∧ (∀ (fuel : Nat) (st : SolverState),
        ((viSweep m γ st).2 > eps →
          viLoop m γ eps (fuel + 1) st = viLoop m γ eps fuel (viSweep m γ st).1)
        ∧ ((viSweep m γ st).2 ≤ eps →
          viLoop m γ eps (fuel + 1) st = some (viSweep m γ st).1))
    ∧ (∀ (fuel : Nat) (st out : SolverState), viLoop m γ eps fuel st = some out →
        ∃ st', (viSweep m γ st').1 = out ∧ (viSweep m γ st').2 ≤ eps) := by
  refine ⟨fun _ => rfl, fun _ => rfl, ?_, ?_, ?_, viLoop_some m γ eps⟩
  · intro p s
    obtain ⟨hmem, hlt, hval, hmin⟩ :=
      npArgmax_range_spec (fun a => update_value m γ p.1.values s a) m.n_actions hA
    refine ⟨?_, ?_, ?_, ?_, viStep_delta m γ p s, ?_⟩
    · intro a ha
      rw [viStep_values_same]
      exact hmem a ha
    · rw [viStep_policy_same]
      exact hlt
    · rw [viStep_policy_same, viStep_values_same]
      exact hval
    · intro b hb
      rw [viStep_policy_same] at hb
      rw [viStep_values_same]
      exact hmin b hb
    · intro t ht
      exact ⟨viStep_values_ne m γ p s t ht, viStep_policy_ne m γ p s t ht⟩
  · intro st
    exact viFold_delta m γ (List.range m.n_states) (st, 0) (List.nodup_range _)
  · intro fuel st
    constructor
    · intro hc
      rw [viLoop_succ, if_pos hc]
    · intro hc
      rw [viLoop_succ, if_neg (not_lt.mpr hc)]

/-- C2 witness: the characterization holds at the concrete model. -/
theorem valueIteration_fit_spec_witness :
    0 < exModel.n_actions
    ∧ ((∀ s, initState.values s = 0)
    ∧ (∀ fuel, viFit exModel (1/2) (1/100) fuel = viLoop exModel (1/2) (1/100) fuel initState)
    ∧ (∀ (p : SolverState × ℚ) (s : Nat),
        (∀ a, a < exModel.n_actions →
          update_value exModel (1/2) p.1.values s a ≤ (viStep exModel (1/2) p s).1.values s)
        ∧ (viStep exModel (1/2) p s).1.policy s < exModel.n_actions
        ∧ update_value exModel (1/2) p.1.values s ((viStep exModel (1/2) p s).1.policy s)
            = (viStep exModel (1/2) p s).1.values s
        ∧ (∀ b, b < (viStep exModel (1/2) p s).1.policy s →
            update_value exModel (1/2) p.1.values s b < (viStep exModel (1/2) p s).1.values s)
        ∧ (viStep exModel (1/2) p s).2
            = max p.2 |p.1.values s - (viStep exModel (1/2) p s).1.values s|
        ∧ ∀ t, t ≠ s → (viStep exModel (1/2) p s).1.values t = p.1.values t
            ∧ (viStep exModel (1/2) p s).1.policy t = p.1.policy t)
    ∧ (∀ st : SolverState, (viSweep exModel (1/2) st).2
        = ((List.range exModel.n_states).map fun s =>
            |st.values s - (viSweep exModel (1/2) st).1.values s|).foldl max 0)
    ∧ (∀ (fuel : Nat) (st : SolverState),
        ((viSweep exModel (1/2) st).2 > 1/100 →
          viLoop exModel (1/2) (1/100) (fuel + 1) st
            = viLoop exModel (1/2) (1/100) fuel (viSweep exModel (1/2) st).1)
        ∧ ((viSweep exModel (1/2) st).2 ≤ 1/100 →
          viLoop exModel (1/2) (1/100) (fuel + 1) st = some (viSweep exModel (1/2) st).1))
    ∧ (∀ (fuel : Nat) (st out : SolverState),
        viLoop exModel (1/2) (1/100) fuel st = some out →
        ∃ st', (viSweep exModel (1/2) st').1 = out ∧ (viSweep exModel (1/2) st').2 ≤ 1/100)) :=
  ⟨by decide, valueIteration_fit_spec exModel (1/2) (1/100) (by decide)⟩

/-- `PolicyIteration._update_policy(s)` (`policies.py` lines 115-120):
argmax over all actions of `_update_value(s, a)` at the current values. -/
def update_policy (m : MDPModel) (γ : ℚ) (st : SolverState) (s : Nat) : Nat :=
  npArgmax ((List.range m.n_actions).map fun a => update_value m γ st.values s a)

/-- `PolicyIteration._policy_improvement` (lines 134-141): replace
`_policy[s]` by `_update_policy(s)` for each state in order, and report
whether no state's action changed (`policy_stable`).  `_values` is not
modified, and `_update_policy` reads only `_values`, so the fold threads
the policy and the stability flag. -/
def policy_improvement (m : MDPModel) (γ : ℚ) (st : SolverState) : SolverState × Bool :=
  (List.range m.n_states).foldl
    (fun p s =>
      let a := p.1.policy s
      let a2 := update_policy m γ p.1 s
      (⟨p.1.values, setIdx p.1.policy s a2⟩, p.2 && decide (a2 = a)))
    (st, true)

/-- The body of the per-state update in `PolicyIteration._policy_evaluation`
(lines 127-131): `V(s) := Q(s, policy(s))`, folding `|v - V(s)|` into
delta. -/
def peStep (m : MDPModel) (γ : ℚ) (p : SolverState × ℚ) (s : Nat) : SolverState × ℚ :=
  let v := p.1.values s
  let a := p.1.policy s
  let newV := update_value m γ p.1.values s a
  (⟨setIdx p.1.values s newV, p.1.policy⟩, max p.2 |v - newV|)

/-- One full sweep of `PolicyIteration._policy_evaluation` (the body of its
while loop, lines 126-131). -/
def peSweep (m : MDPModel) (γ : ℚ) (st : SolverState) : SolverState × ℚ :=
  (List.range m.n_states).foldl (peStep m γ) (st, 0)

/-- `PolicyIteration._policy_evaluation` (lines 123-131), fuel-indexed:
sweep while the sweep's delta exceeds `eps`.  In Python the method returns
`None`; the embedding returns the mutated solver state (`none` only when
the fuel runs out). -/
def policy_evaluation (m : MDPModel) (γ eps : ℚ) : Nat → SolverState → Option SolverState
  | 0, _ => none
  | fuel + 1, st =>
      let p := peSweep m γ st
      if p.2 > eps then policy_evaluation m γ eps fuel p.1 else some p.1

/-- The while loop of `PolicyIteration.fit` (lines 144-148).  The source
runs `self._policy_improvement()` discarding its returned stability flag,
then assigns `policy_stable = self._policy_evaluation()`.
`_policy_evaluation` has no return statement, so it returns Python `None`,
which is falsy: the guard `not policy_stable` therefore holds again on
every iteration, and the loop can only be left by exhausting the fuel. -/
def piLoop (m : MDPModel) (γ eps : ℚ) (evalFuel : Nat) :
    Nat → SolverState → Option SolverState
  | 0, _ => none
  | fuel + 1, st =>
      let st1 := (policy_improvement m γ st).1
      match policy_evaluation m γ eps evalFuel st1 with
      | none => none
      | some st2 => piLoop m γ eps evalFuel fuel st2

/-- `PolicyIteration.fit`, started from the freshly initialized solver. -/
def piFit (m : MDPModel) (γ eps : ℚ) (evalFuel fuel : Nat) : Option SolverState :=
  piLoop m γ eps evalFuel fuel initState

/-- C1: `PolicyIteration.fit` never terminates, under any amount of fuel
for the outer loop and for each `_policy_evaluation` call, on any model:
the loop's guard is re-established on every iteration because the stability
flag computed by `_policy_improvement` is discarded and `policy_stable` is
assigned the falsy `None` returned by `_policy_evaluation`.  The claim's
stated termination condition (stop exactly when an improvement pass changes
no action) is the spec's intent; the code never stops. -/
theorem policyIteration_fit_diverges (m : MDPModel) (γ eps : ℚ)
    (evalFuel fuel : Nat) : piFit m γ eps evalFuel fuel = none := by
  show piLoop m γ eps evalFuel fuel initState = none
  generalize initState = st
  induction fuel generalizing st with
  | zero => rfl
  | succ fuel ih =>
    show (match policy_evaluation m γ eps evalFuel (policy_improvement m γ st).1 with
      | none => none
      | some st2 => piLoop m γ eps evalFuel fuel st2) = none
    cases policy_evaluation m γ eps evalFuel (policy_improvement m γ st).1 with
    | none => rfl
    | some st2 => exact ih st2

/-- `np.arange(start, stop, 1)` over integers: `start, start+1, ..., stop-1`
(empty when `stop ≤ start`). -/
def npArange (start stop : ℤ) : List ℤ :=
  (List.range (stop - start).toNat).map fun (i : Nat) => start + (i : ℤ)

/-- The reward value array `np.arange(-n_rewards + 2, 2, 1)` built in
`MDPFactory.__init__` (`random_mdp_factory.py` line 35). -/
def factoryAllRewards (n_rewards : Nat) : List ℤ :=
  npArange (-(n_rewards : ℤ) + 2) 2

/-- C7: for every `n_rewards ≥ 2` the reward value array is exactly the
`n_rewards` integers `-n_rewards+2, ..., 1`, in strictly increasing order,
with first entry `2 - n_rewards` and last entry `1`. -/
theorem factoryAllRewards_spec (n : Nat) (hn : 2 ≤ n) :
    factoryAllRewards n = (List.range n).map (fun (i : Nat) => (i : ℤ) - n + 2)
    ∧ (factoryAllRewards n).length = n
    ∧ List.Pairwise (· < ·) (factoryAllRewards n)
    ∧ (factoryAllRewards n)[0]? = some (2 - (n : ℤ))
    ∧ (factoryAllRewards n)[n - 1]? = some 1 := by
  have h1 : ((2 : ℤ) - (-(n : ℤ) + 2)).toNat = n := by omega
  have hmap : factoryAllRewards n = (List.range n).map (fun (i : Nat) => (i : ℤ) - n + 2) := by
    rw [factoryAllRewards, npArange, h1]
    apply List.map_congr_left
    intro i _
    ring
  refine ⟨hmap, ?_, ?_, ?_, ?_⟩
  · rw [hmap, List.length_map, List.length_range]
  · rw [hmap]
    refine List.pairwise_map.mpr (List.Pairwise.imp ?_ (List.pairwise_lt_range n))
    intro a b hab
    have : (a : ℤ) < b := by exact_mod_cast hab
    omega
  · rw [hmap, getElem?_range_map _ n 0 (by omega)]
    congr 1
    push_cast
    ring
  · rw [hmap, getElem?_range_map _ n (n - 1) (by omega)]
    congr 1
    have : ((n - 1 : Nat) : ℤ) = (n : ℤ) - 1 := by omega
    rw [this]
    ring

/-- C7 witness: the characterization holds at `n_rewards = 3`, where the
array is `[-1, 0, 1]`. -/
theorem factoryAllRewards_spec_witness :
    2 ≤ 3
    ∧ (factoryAllRewards 3 = (List.range 3).map (fun (i : Nat) => (i : ℤ) - 3 + 2)
    ∧ (factoryAllRewards 3).length = 3
    ∧ List.Pairwise (· < ·) (factoryAllRewards 3)
    ∧ (factoryAllRewards 3)[0]? = some (2 - (3 : ℤ))
    ∧ (factoryAllRewards 3)[3 - 1]? = some 1) :=
  ⟨by decide, factoryAllRewards_spec 3 (by decide)⟩

/-- The reward tables generated by `MDPFactory.__init__` (`self.rewards`);
the array's shape depends on the reward kind, so the embedding carries one
field per kind and the kind selects which one is read. -/
structure RewardTables where
  rewardsS : Nat → ℚ
  rewardsSA : Nat → Nat → ℚ
  rewardsSAS : Nat → Nat → Nat → ℚ
  rewardsSASR : Nat → Nat → Nat → Nat → ℚ

/-- The closure `reward_function(s, a, next_s, r)` defined in
`MDPFactory.__init__` (`random_mdp_factory.py` lines 61-73).  For kind
`SASR`, `i = list(all_rewards).index(r)` is the first index of `r` in the
reward value list.  Note the `SAS` branch: the source indexes
`self.rewards[s, a, s]`, with `next_s` unused. -/
def factory_reward_function (R : RewardTables) (all_rewards : List ℤ)
    (kind : MDPRewardType) (s a next_s : Nat) (r : ℤ) : ℚ :=
  match kind with
  | .S => R.rewardsS s
  | .SA => R.rewardsSA s a
  | .SAS => R.rewardsSAS s a s
  | .SASR => R.rewardsSASR s a next_s (all_rewards.findIdx fun x => x == r)

/-- A concrete reward table whose `SAS` entries distinguish the successor
state: entry `(s, a, next_s) ↦ next_s`. -/
def exTables : RewardTables where
  rewardsS := fun _ => 0
  rewardsSA := fun _ _ => 0
  rewardsSAS := fun _ _ next_s => (next_s : ℚ)
  rewardsSASR := fun _ _ _ _ => 0

/-- C4 (refuted; code bug): at reward kind `SAS` the factory's
`reward_function(s, a, next_s, r)` returns the table entry `[s, a, s]`
rather than `[s, a, next_s]`: with the table `(s,a,next_s) ↦ next_s`, at
`s = 0, a = 0, next_s = 1` the function returns entry `(0,0,0) = 0` while
the entry `(0,0,1)` the claim designates is `1`. -/
theorem factory_reward_function_SAS_bug :
    factory_reward_function exTables [0, 1] .SAS 0 0 1 0 = exTables.rewardsSAS 0 0 0
    ∧ exTables.rewardsSAS 0 0 0 ≠ exTables.rewardsSAS 0 0 1
    ∧ factory_reward_function exTables [0, 1] .SAS 0 0 1 0 ≠ exTables.rewardsSAS 0 0 1 :=
  ⟨rfl, by decide, by decide⟩

/-- The transition tables generated by `MDPFactory.__init__`
(`self.transitions`); as with rewards, the shape depends on the kind. -/
structure TransTables where
  transS : Nat → Nat
  transS_probs : Nat → List ℚ
  transSA : Nat → Nat → Nat
  transSA_probs : Nat → Nat → List ℚ
  transSAS : Nat → Nat → Nat → ℚ

/-- The value returned by the factory's `transition_function`: an int for
deterministic kinds, a dict (embedded as its items) for probabilistic
kinds, a float for kind `SAS`. -/
inductive TransResult where
  | det (next_s : Nat)
  | dist (d : List (Nat × ℚ))
  | prob (p : ℚ)
deriving DecidableEq, Repr

/-- The closure `transition_function(s, a, next_s)` defined in
`MDPFactory.__init__` (`random_mdp_factory.py` lines 41-59); for the
probabilistic kinds `dict(zip(np.arange(len(probas)), probas))` pairs each
probability with its index. -/
def factory_transition_function (T : TransTables) (kind : MDPTransitionType)
    (s a next_s : Nat) : TransResult :=
  match kind with
  | .S_DETERMINISTIC => .det (T.transS s)
  | .S_PROBABILISTIC => .dist (T.transS_probs s).enum
  | .SA_DETERMINISTIC => .det (T.transSA s a)
  | .SA_PROBABILISTIC => .dist (T.transSA_probs s a).enum
  | .SAS => .prob (T.transSAS s a next_s)

/-- C8: for transition kinds `S_DETERMINISTIC` and `S_PROBABILISTIC` the
factory's `transition_function` ignores its action argument. -/
theorem factory_transition_function_ignores_action (T : TransTables)
    (kind : MDPTransitionType) (s a a2 next_s : Nat)
    (h : kind = .S_DETERMINISTIC ∨ kind = .S_PROBABILISTIC) :
    factory_transition_function T kind s a next_s
      = factory_transition_function T kind s a2 next_s := by
  rcases h with h | h <;> subst h <;> rfl

/-- A concrete transition table. -/
def exTrans : TransTables where
  transS := fun s => s + 1
  transS_probs := fun _ => [1/2, 1/2]
  transSA := fun s a => s + a
  transSA_probs := fun _ _ => [1/2, 1/2]
  transSAS := fun _ _ _ => 1/2

/-- C8 witness: at kind `S_DETERMINISTIC`, actions `0` and `1` give the
same transition result. -/
theorem factory_transition_function_ignores_action_witness :
    (MDPTransitionType.S_DETERMINISTIC = MDPTransitionType.S_DETERMINISTIC
      ∨ MDPTransitionType.S_DETERMINISTIC = MDPTransitionType.S_PROBABILISTIC)
    ∧ factory_transition_function exTrans .S_DETERMINISTIC 0 0 1
      = factory_transition_function exTrans .S_DETERMINISTIC 0 1 1 :=
  ⟨Or.inl rfl,
   factory_transition_function_ignores_action exTrans .S_DETERMINISTIC 0 0 1 1 (Or.inl rfl)⟩

/-- The outcome of one `step` call of the environment (the `info` member
carries no data used by `create` and is omitted). -/
structure StepOut where
  next_state : Nat
  reward : ℚ
  terminated : Bool
  truncated : Bool

/-- Modelled from the spec: the environment behind `factory.model` driven
by `create` — `mini_rl_lib/mdp.py` and the wrapper layer are not among the
sources at hand.  Spec §4.2: `reset(seed)` re-seeds the internal generator
and returns the initial state, and for the core model `truncated` is always
false.  Spec §5: with the same seed, repeated resets reproduce the same
initial state and the same subsequent step outcomes, so along a rollout
the outcome of the `t`-th step is a function of `t`, the current state and
the chosen action, embedded as the oracle `stepFn t state action`. -/
structure EnvModel where
  reset : Nat → Nat
  stepFn : Nat → Nat → Nat → StepOut

/-- One recorded episode: the four lists `[states, actions, rewards,
times]` appended to by `create`'s replay loop. -/
structure Episode where
  states : List Nat
  actions : List Nat
  rewards : List ℚ
  times : List Nat

/-- The four empty lists set up before each replay (`data.py` lines 82-85). -/
def emptyEpisode : Episode := ⟨[], [], [], []⟩

/-- The expert rollout of `create` (`data.py` lines 63-75): follow
`policy`, accumulate `target_return`, stop at the first terminated or
truncated step or when the `max_step` iterations are exhausted.  `fuel` is
the number of remaining iterations and `t` the current step index. -/
def expertLoop (env : EnvModel) (policy : Nat → Nat) :
    Nat → Nat → Nat → ℚ → ℚ
  | 0, _, _, acc => acc
  | fuel + 1, t, state, acc =>
      let out := env.stepFn t state (policy state)
      if out.terminated || out.truncated then acc + out.reward
      else expertLoop env policy fuel (t + 1) out.next_state (acc + out.reward)

/-- The reward sequence of the expert rollout that always takes
`policy[state]`, stopping at the first terminated or truncated step or
after the given number of steps: the specification-side reading of the
expert phase, whose sum the claim says `target_return` equals. -/
def expertRewards (env : EnvModel) (policy : Nat → Nat) :
    Nat → Nat → Nat → List ℚ
  | 0, _, _ => []
  | fuel + 1, t, state =>
      let out := env.stepFn t state (policy state)
      if out.terminated || out.truncated then [out.reward]
      else out.reward :: expertRewards env policy fuel (t + 1) out.next_state

/-- One replay of `create` (`data.py` lines 93-115): at each step, explore
with probability `random_play_p` — the draw `explore t` stands for
`np.random.random()` at step `t` and `sampleOr t` for what
`action_space.sample()` would return there — else follow the policy;
record state, action, reward and step index; stop on `terminated or
truncated` or when the `max_step` iterations are exhausted.  Returns the
episode, the final value of the Python loop variable `t` (the index of the
last executed step; on fuel exhaustion the running `t` is one past it,
whence the decrement), and, as specification-side ghost data, the
`terminated || truncated` flag of each executed step. -/
def replayLoop (env : EnvModel) (policy : Nat → Nat) (random_play_p : ℚ)
    (explore : Nat → ℚ) (sampleOr : Nat → Nat) :
    Nat → Nat → Nat → Episode → List Bool → Episode × Nat × List Bool
  | 0, t, _, ep, flags => (ep, t - 1, flags)
  | fuel + 1, t, state, ep, flags =>
      let action := if explore t < random_play_p then sampleOr t else policy state
      let out := env.stepFn t state action
      let ep2 : Episode := ⟨ep.states ++ [state], ep.actions ++ [action],
                            ep.rewards ++ [out.reward], ep.times ++ [t]⟩
      let flags2 := flags ++ [out.terminated || out.truncated]
      if out.terminated || out.truncated then (ep2, t, flags2)
      else replayLoop env policy random_play_p explore sampleOr fuel (t + 1)
            out.next_state ep2 flags2

/-- One replay as `create` runs it: reset with `seed`, start at `t = 0`
with empty accumulators.  (`data.py` line 88 re-reads
`factory.model._current_state` right after `reset`; per spec §4.2 `reset`
sets `current_state` to the state it returns, so both reads are the
initial state `reset seed`.) -/
def runReplay (env : EnvModel) (policy : Nat → Nat) (p : ℚ)
    (explore : Nat → ℚ) (sampleOr : Nat → Nat) (max_step seed : Nat) :
    Episode × Nat × List Bool :=
  replayLoop env policy p explore sampleOr max_step 0 (env.reset seed) emptyEpisode []

/-- The episode recorded by replay `i` of `create`. -/
def replayEp (env : EnvModel) (policy : Nat → Nat) (p : ℚ)
    (explore : Nat → Nat → ℚ) (sampleOr : Nat → Nat → Nat)
    (max_step seed i : Nat) : Episode :=
  (runReplay env policy p (explore i) (sampleOr i) max_step seed).1

/-- The final loop index `t` of replay `i` of `create`. -/
def replayT (env : EnvModel) (policy : Nat → Nat) (p : ℚ)
    (explore : Nat → Nat → ℚ) (sampleOr : Nat → Nat → Nat)
    (max_step seed i : Nat) : Nat :=
  (runReplay env policy p (explore i) (sampleOr i) max_step seed).2.1

/-- The per-step end flags of replay `i` of `create`. -/
def replayFlags (env : EnvModel) (policy : Nat → Nat) (p : ℚ)
    (explore : Nat → Nat → ℚ) (sampleOr : Nat → Nat → Nat)
    (max_step seed i : Nat) : List Bool :=
  (runReplay env policy p (explore i) (sampleOr i) max_step seed).2.2

/-- The replay phase of `create` (`data.py` lines 77-118): `n_replay`
replays, each reset with the same `seed`, collecting episodes in order and
folding each replay's final `t` into `data_min_step`/`data_max_step`
(initialized to `max_step` and `0`, updated by strict comparison). -/
def replayPhase (env : EnvModel) (policy : Nat → Nat) (p : ℚ)
    (explore : Nat → Nat → ℚ) (sampleOr : Nat → Nat → Nat)
    (max_step seed n_replay : Nat) : List Episode × Nat × Nat :=
  (List.range n_replay).foldl
    (fun acc i =>
      let r := runReplay env policy p (explore i) (sampleOr i) max_step seed
      (acc.1 ++ [r.1],
       if r.2.1 < acc.2.1 then r.2.1 else acc.2.1,
       if r.2.1 > acc.2.2 then r.2.1 else acc.2.2))
    ([], max_step, 0)

/-- The fields of `metadata.json` computed by `create` (the remaining
fields are copies of `create`'s arguments). -/
structure Metadata where
  target_return : ℚ
  data_min_step : Nat
  data_max_step : Nat
  n_replay : Nat

/-- `create` (`data.py` lines 19-136), restricted to what it computes: the
expert rollout's `target_return`, the replay episodes in recorded order,
and the step-count metadata (directory naming and JSON writing are I/O
glue outside the data model). -/
def create (env : EnvModel) (policy : Nat → Nat) (p : ℚ)
    (explore : Nat → Nat → ℚ) (sampleOr : Nat → Nat → Nat)
    (max_step seed n_replay : Nat) : Metadata × List Episode :=
  let tr := expertLoop env policy max_step 0 (env.reset seed) 0
  let rp := replayPhase env policy p explore sampleOr max_step seed n_replay
  (⟨tr, rp.2.1, rp.2.2, n_replay⟩, rp.1)

theorem expertLoop_eq_sum (env : EnvModel) (policy : Nat → Nat) :
    ∀ fuel t state acc, expertLoop env policy fuel t state acc
      = acc + (expertRewards env policy fuel t state).sum := by
  intro fuel
  induction fuel with
  | zero => intro t state acc; simp [expertLoop, expertRewards]
  | succ fuel ih =>
    intro t state acc
    simp only [expertLoop, expertRewards]
    by_cases h : (env.stepFn t state (policy state)).terminated
        || (env.stepFn t state (policy state)).truncated
    · simp [h]
    · simp only [if_neg h, ih, List.sum_cons]
      ring

/-- The replay loop with the action selection abstracted into `act`: the
structural lemmas below are proved here once and transported to
`replayLoop`. -/
def rolloutG (env : EnvModel) (act : Nat → Nat → Nat) :
    Nat → Nat → Nat → Episode → List Bool → Episode × Nat × List Bool
  | 0, t, _, ep, flags => (ep, t - 1, flags)
  | fuel + 1, t, state, ep, flags =>
      let action := act t state
      let out := env.stepFn t state action
      let ep2 : Episode := ⟨ep.states ++ [state], ep.actions ++ [action],
                            ep.rewards ++ [out.reward], ep.times ++ [t]⟩
      let flags2 := flags ++ [out.terminated || out.truncated]
      if out.terminated || out.truncated then (ep2, t, flags2)
      else rolloutG env act fuel (t + 1) out.next_state ep2 flags2

theorem replayLoop_eq_rolloutG (env : EnvModel) (policy : Nat → Nat)
    (p : ℚ) (explore : Nat → ℚ) (sampleOr : Nat → Nat) :
    ∀ fuel t state ep flags,
      replayLoop env policy p explore sampleOr fuel t state ep flags
        = rolloutG env (fun u st => if explore u < p then sampleOr u else policy st)
            fuel t state ep flags := by
  intro fuel
  induction fuel with
  | zero => intro t state ep flags; rfl
  | succ fuel ih =>
    intro t state ep flags
    simp only [replayLoop, rolloutG]
    by_cases h : (env.stepFn t state
        (if explore t < p then sampleOr t else policy state)).terminated
      || (env.stepFn t state
        (if explore t < p then sampleOr t else policy state)).truncated
    · simp only [if_pos h]
    · simp only [if_neg h, ih]

/-- The per-replay bookkeeping invariant: the four episode lists and the
flag list have one common length, and each recorded index holds the step
outcome of its recorded (time, state, action) triple — the flag is that
step's `terminated || truncated` and the reward is that step's reward. -/
def EpisodeInv (env : EnvModel) (ep : Episode) (flags : List Bool) : Prop :=
  ep.states.length = ep.actions.length
  ∧ ep.states.length = ep.rewards.length
  ∧ ep.states.length = ep.times.length
  ∧ ep.states.length = flags.length
  ∧ ∀ (j tj sj aj : Nat), ep.times[j]? = some tj → ep.states[j]? = some sj →
      ep.actions[j]? = some aj →
      flags[j]? = some ((env.stepFn tj sj aj).terminated
          || (env.stepFn tj sj aj).truncated)
      ∧ ep.rewards[j]? = some (env.stepFn tj sj aj).reward

theorem EpisodeInv_empty (env : EnvModel) : EpisodeInv env emptyEpisode [] := by
  refine ⟨rfl, rfl, rfl, rfl, ?_⟩
  intro j tj sj aj htj _ _
  rw [show emptyEpisode.times = [] from rfl, List.getElem?_nil] at htj
  cases htj

theorem EpisodeInv_append (env : EnvModel) (ep : Episode) (flags : List Bool)
    (t state action : Nat) (h : EpisodeInv env ep flags) :
    EpisodeInv env
      ⟨ep.states ++ [state], ep.actions ++ [action],
       ep.rewards ++ [(env.stepFn t state action).reward], ep.times ++ [t]⟩
      (flags ++ [(env.stepFn t state action).terminated
          || (env.stepFn t state action).truncated]) := by
  obtain ⟨h1, h2, h3, h4, h5⟩ := h
  refine ⟨by simp [h1], by simp [h2], by simp [h3], by simp [h4], ?_⟩
  intro j tj sj aj htj hsj haj
  by_cases hj : j < ep.states.length
  · rw [List.getElem?_append_left (h3 ▸ hj)] at htj
    rw [List.getElem?_append_left hj] at hsj
    rw [List.getElem?_append_left (h1 ▸ hj)] at haj
    obtain ⟨hf, hr⟩ := h5 j tj sj aj htj hsj haj
    exact ⟨by rw [List.getElem?_append_left (h4 ▸ hj)]; exact hf,
           by rw [List.getElem?_append_left (h2 ▸ hj)]; exact hr⟩
  · have hjlt : j < (ep.states ++ [state]).length := (List.getElem?_eq_some.mp hsj).1
    have hjeq : j = ep.states.length := by
      simp only [List.length_append, List.length_singleton] at hjlt
      omega
    subst hjeq
    rw [h3, List.getElem?_concat_length] at htj
    rw [List.getElem?_concat_length] at hsj
    rw [h1, List.getElem?_concat_length] at haj
    cases htj
    cases hsj
    cases haj
    exact ⟨by rw [h4, List.getElem?_concat_length],
           by rw [h2, List.getElem?_concat_length]⟩

theorem rolloutG_inv (env : EnvModel) (act : Nat → Nat → Nat) :
    ∀ fuel t state ep flags, EpisodeInv env ep flags →
      EpisodeInv env (rolloutG env act fuel t state ep flags).1
        (rolloutG env act fuel t state ep flags).2.2 := by
  intro fuel
  induction fuel with
  | zero => intro t state ep flags h; exact h
  | succ fuel ih =>
    intro t state ep flags h
    simp only [rolloutG]
    by_cases hterm : (env.stepFn t state (act t state)).terminated
        || (env.stepFn t state (act t state)).truncated
    · rw [if_pos hterm]
      exact EpisodeInv_append env ep flags t state (act t state) h
    · rw [if_neg hterm]
      exact ih _ _ _ _ (EpisodeInv_append env ep flags t state (act t state) h)

theorem rolloutG_len_le (env : EnvModel) (act : Nat → Nat → Nat) :
    ∀ fuel t state ep flags,
      (rolloutG env act fuel t state ep flags).1.states.length
        ≤ ep.states.length + fuel := by
  intro fuel
  induction fuel with
  | zero => intro t state ep flags; exact Nat.le_refl _
  | succ fuel ih =>
    intro t state ep flags
    simp only [rolloutG]
    by_cases hterm : (env.stepFn t state (act t state)).terminated
        || (env.stepFn t state (act t state)).truncated
    · rw [if_pos hterm]
      simp only [List.length_append, List.length_singleton]
      omega
    · rw [if_neg hterm]
      have := ih (t + 1) (env.stepFn t state (act t state)).next_state
        ⟨ep.states ++ [state], ep.actions ++ [act t state],
         ep.rewards ++ [(env.stepFn t state (act t state)).reward], ep.times ++ [t]⟩
        (flags ++ [(env.stepFn t state (act t state)).terminated
          || (env.stepFn t state (act t state)).truncated])
      simp only [List.length_append, List.length_singleton] at this
      omega

theorem rolloutG_flags_shape (env : EnvModel) (act : Nat → Nat → Nat) :
    ∀ fuel t state ep flags, (∀ b ∈ flags, b = false) →
      (∀ b ∈ (rolloutG env act fuel t state ep flags).2.2, b = false)
      ∨ ∃ l, (rolloutG env act fuel t state ep flags).2.2 = l ++ [true]
          ∧ ∀ b ∈ l, b = false := by
  intro fuel
  induction fuel with
  | zero => intro t state ep flags hall; exact Or.inl hall
  | succ fuel ih =>
    intro t state ep flags hall
    simp only [rolloutG]
    by_cases hterm : (env.stepFn t state (act t state)).terminated
        || (env.stepFn t state (act t state)).truncated
    · rw [if_pos hterm]
      exact Or.inr ⟨flags, by rw [hterm], hall⟩
    · rw [if_neg hterm]
      have hfalse : ((env.stepFn t state (act t state)).terminated
          || (env.stepFn t state (act t state)).truncated) = false := by
        revert hterm
        cases (env.stepFn t state (act t state)).terminated
            || (env.stepFn t state (act t state)).truncated <;> simp
      refine ih _ _ _ _ ?_
      intro b hb
      rcases List.mem_append.mp hb with hb | hb
      · exact hall b hb
      · rw [List.mem_singleton.mp hb, hfalse]

theorem rolloutG_all_false_len (env : EnvModel) (act : Nat → Nat → Nat) :
    ∀ fuel t state ep flags,
      (∀ b ∈ (rolloutG env act fuel t state ep flags).2.2, b = false) →
      (rolloutG env act fuel t state ep flags).1.states.length
        = ep.states.length + fuel := by
  intro fuel
  induction fuel with
  | zero => intro t state ep flags _; rfl
  | succ fuel ih =>
    intro t state ep flags hall
    simp only [rolloutG] at hall ⊢
    by_cases hterm : (env.stepFn t state (act t state)).terminated
        || (env.stepFn t state (act t state)).truncated
    · rw [if_pos hterm] at hall
      have : ((env.stepFn t state (act t state)).terminated
          || (env.stepFn t state (act t state)).truncated) = false :=
        hall _ (List.mem_append_right flags (List.mem_singleton_self _))
      rw [hterm] at this
      cases this
    · rw [if_neg hterm] at hall ⊢
      have := ih (t + 1) (env.stepFn t state (act t state)).next_state
        ⟨ep.states ++ [state], ep.actions ++ [act t state],
         ep.rewards ++ [(env.stepFn t state (act t state)).reward], ep.times ++ [t]⟩
        (flags ++ [(env.stepFn t state (act t state)).terminated
          || (env.stepFn t state (act t state)).truncated]) hall
      simp only [List.length_append, List.length_singleton] at this
      omega

theorem rolloutG_succ (env : EnvModel) (act : Nat → Nat → Nat) (fuel t state : Nat)
    (ep : Episode) (flags : List Bool) :
    rolloutG env act (fuel + 1) t state ep flags
      = if (env.stepFn t state (act t state)).terminated
          || (env.stepFn t state (act t state)).truncated
        then (⟨ep.states ++ [state], ep.actions ++ [act t state],
               ep.rewards ++ [(env.stepFn t state (act t state)).reward],
               ep.times ++ [t]⟩, t,
              flags ++ [(env.stepFn t state (act t state)).terminated
                || (env.stepFn t state (act t state)).truncated])
        else rolloutG env act fuel (t + 1) (env.stepFn t state (act t state)).next_state
              ⟨ep.states ++ [state], ep.actions ++ [act t state],
               ep.rewards ++ [(env.stepFn t state (act t state)).reward],
               ep.times ++ [t]⟩
              (flags ++ [(env.stepFn t state (act t state)).terminated
                || (env.stepFn t state (act t state)).truncated]) := rfl

theorem rolloutG_t (env : EnvModel) (act : Nat → Nat → Nat) :
    ∀ fuel t state ep flags,
      (rolloutG env act (fuel + 1) t state ep flags).2.1 + 1 + ep.states.length
        = t + (rolloutG env act (fuel + 1) t state ep flags).1.states.length := by
  intro fuel
  induction fuel with
  | zero =>
    intro t state ep flags
    rw [rolloutG_succ]
    by_cases hterm : (env.stepFn t state (act t state)).terminated
        || (env.stepFn t state (act t state)).truncated
    · rw [if_pos hterm]
      simp only [List.length_append, List.length_singleton]
      omega
    · rw [if_neg hterm]
      simp only [rolloutG, List.length_append, List.length_singleton]
      omega
  | succ fuel ih =>
    intro t state ep flags
    rw [rolloutG_succ]
    by_cases hterm : (env.stepFn t state (act t state)).terminated
        || (env.stepFn t state (act t state)).truncated
    · rw [if_pos hterm]
      simp only [List.length_append, List.length_singleton]
      omega
    · rw [if_neg hterm]
      have := ih (t + 1) (env.stepFn t state (act t state)).next_state
        ⟨ep.states ++ [state], ep.actions ++ [act t state],
         ep.rewards ++ [(env.stepFn t state (act t state)).reward], ep.times ++ [t]⟩
        (flags ++ [(env.stepFn t state (act t state)).terminated
          || (env.stepFn t state (act t state)).truncated])
      simp only [List.length_append, List.length_singleton] at this
      omega

theorem rolloutG_states_prefix (env : EnvModel) (act : Nat → Nat → Nat) :
    ∀ fuel t state ep flags,
      ∃ l, (rolloutG env act fuel t state ep flags).1.states = ep.states ++ l := by
  intro fuel
  induction fuel with
  | zero => intro t state ep flags; exact ⟨[], (List.append_nil _).symm⟩
  | succ fuel ih =>
    intro t state ep flags
    simp only [rolloutG]
    by_cases hterm : (env.stepFn t state (act t state)).terminated
        || (env.stepFn t state (act t state)).truncated
    · rw [if_pos hterm]
      exact ⟨[state], rfl⟩
    · rw [if_neg hterm]
      obtain ⟨l, hl⟩ := ih (t + 1) (env.stepFn t state (act t state)).next_state
        ⟨ep.states ++ [state], ep.actions ++ [act t state],
         ep.rewards ++ [(env.stepFn t state (act t state)).reward], ep.times ++ [t]⟩
        (flags ++ [(env.stepFn t state (act t state)).terminated
          || (env.stepFn t state (act t state)).truncated])
      exact ⟨[state] ++ l, by rw [hl, List.append_assoc]⟩

theorem mem_of_getElem?_some {α : Type} {l : List α} {n : Nat} {a : α}
    (h : l[n]? = some a) : a ∈ l := by
  obtain ⟨hlt, rfl⟩ := List.getElem?_eq_some.mp h
  exact List.getElem_mem hlt

theorem rolloutG_actions_fn (env : EnvModel) (act : Nat → Nat → Nat) (g : Nat → Nat)
    (hact : ∀ u st, act u st = g st) :
    ∀ fuel t state ep flags, ep.actions = ep.states.map g →
      (rolloutG env act fuel t state ep flags).1.actions
        = (rolloutG env act fuel t state ep flags).1.states.map g := by
  intro fuel
  induction fuel with
  | zero => intro t state ep flags h; exact h
  | succ fuel ih =>
    intro t state ep flags h
    rw [rolloutG_succ]
    by_cases hterm : (env.stepFn t state (act t state)).terminated
        || (env.stepFn t state (act t state)).truncated
    · rw [if_pos hterm]
      show ep.actions ++ [act t state] = (ep.states ++ [state]).map g
      rw [List.map_append, h, List.map_singleton, hact t state]
    · rw [if_neg hterm]
      refine ih _ _ _ _ ?_
      show ep.actions ++ [act t state] = (ep.states ++ [state]).map g
      rw [List.map_append, h, List.map_singleton, hact t state]

theorem rolloutG_actions_time (env : EnvModel) (act : Nat → Nat → Nat) (g : Nat → Nat)
    (hact : ∀ u st, act u st = g u) :
    ∀ fuel t state ep flags, ep.actions = ep.times.map g →
      (rolloutG env act fuel t state ep flags).1.actions
        = (rolloutG env act fuel t state ep flags).1.times.map g := by
  intro fuel
  induction fuel with
  | zero => intro t state ep flags h; exact h
  | succ fuel ih =>
    intro t state ep flags h
    rw [rolloutG_succ]
    by_cases hterm : (env.stepFn t state (act t state)).terminated
        || (env.stepFn t state (act t state)).truncated
    · rw [if_pos hterm]
      show ep.actions ++ [act t state] = (ep.times ++ [t]).map g
      rw [List.map_append, h, List.map_singleton, hact t state]
    · rw [if_neg hterm]
      refine ih _ _ _ _ ?_
      show ep.actions ++ [act t state] = (ep.times ++ [t]).map g
      rw [List.map_append, h, List.map_singleton, hact t state]

theorem rolloutG_head (env : EnvModel) (act : Nat → Nat → Nat)
    (fuel t state : Nat) (flags : List Bool) :
    (rolloutG env act (fuel + 1) t state emptyEpisode flags).1.states.head?
      = some state := by
  rw [rolloutG_succ]
  by_cases hterm : (env.stepFn t state (act t state)).terminated
      || (env.stepFn t state (act t state)).truncated
  · rw [if_pos hterm]
    rfl
  · rw [if_neg hterm]
    obtain ⟨l, hl⟩ := rolloutG_states_prefix env act fuel (t + 1)
      (env.stepFn t state (act t state)).next_state
      ⟨emptyEpisode.states ++ [state], emptyEpisode.actions ++ [act t state],
       emptyEpisode.rewards ++ [(env.stepFn t state (act t state)).reward],
       emptyEpisode.times ++ [t]⟩
      (flags ++ [(env.stepFn t state (act t state)).terminated
        || (env.stepFn t state (act t state)).truncated])
    rw [hl]
    rfl

theorem foldl_append_singleton {α β : Type} (f : α → β) (L : List α) :
    ∀ init : List β, L.foldl (fun l x => l ++ [f x]) init = init ++ L.map f := by
  induction L with
  | nil => intro init; simp
  | cons x L ih =>
    intro init
    rw [List.foldl_cons, ih, List.map_cons]
    simp

theorem foldl_prod3_split {α β γ δ : Type} (f : β → α → β) (g : γ → α → γ)
    (h : δ → α → δ) (L : List α) :
    ∀ (b : β) (c : γ) (d : δ),
      L.foldl (fun acc x => (f acc.1 x, g acc.2.1 x, h acc.2.2 x)) (b, c, d)
        = (L.foldl f b, L.foldl g c, L.foldl h d) := by
  induction L with
  | nil => intro b c d; rfl
  | cons x L ih =>
    intro b c d
    rw [List.foldl_cons, List.foldl_cons, List.foldl_cons, List.foldl_cons]
    exact ih (f b x) (g c x) (h d x)

theorem foldl_min_general (L : List Nat) :
    ∀ acc : Nat,
      (L.foldl (fun mn x => if x < mn then x else mn) acc = acc
        ∨ L.foldl (fun mn x => if x < mn then x else mn) acc ∈ L)
      ∧ L.foldl (fun mn x => if x < mn then x else mn) acc ≤ acc
      ∧ ∀ x ∈ L, L.foldl (fun mn x => if x < mn then x else mn) acc ≤ x := by
  induction L with
  | nil => intro acc; exact ⟨Or.inl rfl, Nat.le_refl _, by intro x hx; cases hx⟩
  | cons y L ih =>
    intro acc
    rw [List.foldl_cons]
    by_cases hy : y < acc
    · rw [if_pos hy]
      obtain ⟨hmem, hle, hall⟩ := ih y
      refine ⟨?_, le_trans hle (le_of_lt hy), ?_⟩
      · rcases hmem with h | h
        · exact Or.inr (by rw [h]; exact List.mem_cons_self y L)
        · exact Or.inr (List.mem_cons_of_mem y h)
      · intro x hx
        rcases List.mem_cons.mp hx with h | h
        · subst h; exact hle
        · exact hall x h
    · rw [if_neg hy]
      obtain ⟨hmem, hle, hall⟩ := ih acc
      refine ⟨?_, hle, ?_⟩
      · rcases hmem with h | h
        · exact Or.inl h
        · exact Or.inr (List.mem_cons_of_mem y h)
      · intro x hx
        rcases List.mem_cons.mp hx with h | h
        · subst h; exact le_trans hle (Nat.not_lt.mp hy)
        · exact hall x h

theorem foldl_min_spec (L : List Nat) (init : Nat) (hlt : ∀ x ∈ L, x < init)
    (hne : L ≠ []) :
    L.foldl (fun mn x => if x < mn then x else mn) init ∈ L
    ∧ ∀ x ∈ L, L.foldl (fun mn x => if x < mn then x else mn) init ≤ x := by
  cases L with
  | nil => cases hne rfl
  | cons y L =>
    rw [List.foldl_cons, if_pos (hlt y (List.mem_cons_self y L))]
    obtain ⟨hmem, hle, hall⟩ := foldl_min_general L y
    refine ⟨?_, ?_⟩
    · rcases hmem with h | h
      · rw [h]; exact List.mem_cons_self y L
      · exact List.mem_cons_of_mem y h
    · intro x hx
      rcases List.mem_cons.mp hx with h | h
      · subst h; exact hle
      · exact hall x h

theorem foldl_max_general (L : List Nat) :
    ∀ acc : Nat,
      (L.foldl (fun mx x => if x > mx then x else mx) acc = acc
        ∨ L.foldl (fun mx x => if x > mx then x else mx) acc ∈ L)
      ∧ acc ≤ L.foldl (fun mx x => if x > mx then x else mx) acc
      ∧ ∀ x ∈ L, x ≤ L.foldl (fun mx x => if x > mx then x else mx) acc := by
  induction L with
  | nil => intro acc; exact ⟨Or.inl rfl, Nat.le_refl _, by intro x hx; cases hx⟩
  | cons y L ih =>
    intro acc
    rw [List.foldl_cons]
    by_cases hy : y > acc
    · rw [if_pos hy]
      obtain ⟨hmem, hle, hall⟩ := ih y
      refine ⟨?_, le_trans (le_of_lt hy) hle, ?_⟩
      · rcases hmem with h | h
        · exact Or.inr (by rw [h]; exact List.mem_cons_self y L)
        · exact Or.inr (List.mem_cons_of_mem y h)
      · intro x hx
        rcases List.mem_cons.mp hx with h | h
        · subst h; exact hle
        · exact hall x h
    · rw [if_neg hy]
      obtain ⟨hmem, hle, hall⟩ := ih acc
      refine ⟨?_, hle, ?_⟩
      · rcases hmem with h | h
        · exact Or.inl h
        · exact Or.inr (List.mem_cons_of_mem y h)
      · intro x hx
        rcases List.mem_cons.mp hx with h | h
        · subst h; exact le_trans (Nat.not_lt.mp hy) hle
        · exact hall x h

theorem foldl_max_spec (L : List Nat) (hne : L ≠ []) :
    L.foldl (fun mx x => if x > mx then x else mx) 0 ∈ L
    ∧ ∀ x ∈ L, x ≤ L.foldl (fun mx x => if x > mx then x else mx) 0 := by
  obtain ⟨hmem, _, hall⟩ := foldl_max_general L 0
  rcases hmem with h | h
  · cases L with
    | nil => cases hne rfl
    | cons y L =>
      have hy : y = 0 := Nat.le_zero.mp (h ▸ hall y (List.mem_cons_self y L))
      refine ⟨?_, hall⟩
      rw [h, ← hy]
      exact List.mem_cons_self y L
  · exact ⟨h, hall⟩

theorem replayPhase_eq (env : EnvModel) (policy : Nat → Nat) (p : ℚ)
    (explore : Nat → Nat → ℚ) (sampleOr : Nat → Nat → Nat)
    (max_step seed n_replay : Nat) :
    replayPhase env policy p explore sampleOr max_step seed n_replay
      = ((List.range n_replay).map
           (replayEp env policy p explore sampleOr max_step seed),
         (List.range n_replay).foldl
           (fun mn i =>
             if replayT env policy p explore sampleOr max_step seed i < mn
             then replayT env policy p explore sampleOr max_step seed i else mn)
           max_step,
         (List.range n_replay).foldl
           (fun mx i =>
             if replayT env policy p explore sampleOr max_step seed i > mx
             then replayT env policy p explore sampleOr max_step seed i else mx)
           0) := by
  have h := foldl_prod3_split
    (fun (l : List Episode) i =>
      l ++ [(runReplay env policy p (explore i) (sampleOr i) max_step seed).1])
    (fun (mn : Nat) i =>
      if (runReplay env policy p (explore i) (sampleOr i) max_step seed).2.1 < mn
      then (runReplay env policy p (explore i) (sampleOr i) max_step seed).2.1 else mn)
    (fun (mx : Nat) i =>
      if (runReplay env policy p (explore i) (sampleOr i) max_step seed).2.1 > mx
      then (runReplay env policy p (explore i) (sampleOr i) max_step seed).2.1 else mx)
    (List.range n_replay) [] max_step 0
  refine Eq.trans h ?_
  rw [foldl_append_singleton]
  rfl

theorem runReplay_eq_rolloutG (env : EnvModel) (policy : Nat → Nat) (p : ℚ)
    (explore : Nat → ℚ) (sampleOr : Nat → Nat) (max_step seed : Nat) :
    runReplay env policy p explore sampleOr max_step seed
      = rolloutG env (fun u st => if explore u < p then sampleOr u else policy st)
          max_step 0 (env.reset seed) emptyEpisode [] := by
  rw [runReplay, replayLoop_eq_rolloutG]

theorem replay_inv (env : EnvModel) (policy : Nat → Nat) (p : ℚ)
    (explore : Nat → Nat → ℚ) (sampleOr : Nat → Nat → Nat)
    (max_step seed i : Nat) :
    EpisodeInv env (replayEp env policy p explore sampleOr max_step seed i)
      (replayFlags env policy p explore sampleOr max_step seed i) := by
  rw [replayEp, replayFlags, runReplay_eq_rolloutG]
  exact rolloutG_inv env _ max_step 0 (env.reset seed) emptyEpisode []
    (EpisodeInv_empty env)

theorem replayEp_len_le (env : EnvModel) (policy : Nat → Nat) (p : ℚ)
    (explore : Nat → Nat → ℚ) (sampleOr : Nat → Nat → Nat)
    (max_step seed i : Nat) :
    (replayEp env policy p explore sampleOr max_step seed i).states.length
      ≤ max_step := by
  rw [replayEp, runReplay_eq_rolloutG]
  have := rolloutG_len_le env
    (fun u st => if explore i u < p then sampleOr i u else policy st)
    max_step 0 (env.reset seed) emptyEpisode []
  simpa [emptyEpisode] using this

theorem replay_flags_shape (env : EnvModel) (policy : Nat → Nat) (p : ℚ)
    (explore : Nat → Nat → ℚ) (sampleOr : Nat → Nat → Nat)
    (max_step seed i : Nat) :
    (∀ b ∈ replayFlags env policy p explore sampleOr max_step seed i, b = false)
    ∨ ∃ l, replayFlags env policy p explore sampleOr max_step seed i = l ++ [true]
        ∧ ∀ b ∈ l, b = false := by
  rw [replayFlags, runReplay_eq_rolloutG]
  exact rolloutG_flags_shape env _ max_step 0 (env.reset seed) emptyEpisode []
    (by intro b hb; cases hb)

theorem replay_flags_true_last (env : EnvModel) (policy : Nat → Nat) (p : ℚ)
    (explore : Nat → Nat → ℚ) (sampleOr : Nat → Nat → Nat)
    (max_step seed i : Nat) :
    ∀ j : Nat,
      (replayFlags env policy p explore sampleOr max_step seed i)[j]? = some true →
      j + 1 = (replayFlags env policy p explore sampleOr max_step seed i).length := by
  intro j hj
  rcases replay_flags_shape env policy p explore sampleOr max_step seed i
    with hall | ⟨l, hl, halll⟩
  · exact absurd (hall true (mem_of_getElem?_some hj)) (by decide)
  · rw [hl] at hj ⊢
    have hjlt : j < (l ++ [true]).length := (List.getElem?_eq_some.mp hj).1
    rw [List.length_append, List.length_singleton] at hjlt ⊢
    by_cases hjl : j < l.length
    · rw [List.getElem?_append_left hjl] at hj
      exact absurd (halll true (mem_of_getElem?_some hj)) (by decide)
    · omega

theorem replay_all_false_len (env : EnvModel) (policy : Nat → Nat) (p : ℚ)
    (explore : Nat → Nat → ℚ) (sampleOr : Nat → Nat → Nat)
    (max_step seed i : Nat) :
    (∀ b ∈ replayFlags env policy p explore sampleOr max_step seed i, b = false) →
    (replayEp env policy p explore sampleOr max_step seed i).states.length
      = max_step := by
  intro hall
  rw [replayEp, runReplay_eq_rolloutG]
  rw [replayFlags, runReplay_eq_rolloutG] at hall
  have := rolloutG_all_false_len env
    (fun u st => if explore i u < p then sampleOr i u else policy st)
    max_step 0 (env.reset seed) emptyEpisode [] hall
  simpa [emptyEpisode] using this

theorem create_data_eq (env : EnvModel) (policy : Nat → Nat) (p : ℚ)
    (explore : Nat → Nat → ℚ) (sampleOr : Nat → Nat → Nat)
    (max_step seed n_replay : Nat) :
    (create env policy p explore sampleOr max_step seed n_replay).2
      = (List.range n_replay).map
          (replayEp env policy p explore sampleOr max_step seed) := by
  show (replayPhase env policy p explore sampleOr max_step seed n_replay).1 = _
  rw [replayPhase_eq]

/-- C5: `create` records exactly `n_replay` episodes; each recorded episode
has its four lists `[states, actions, rewards, times]` of one common length
(shared with the ghost per-step end-flag list), that length never exceeds
`max_step`; each recorded index's flag and reward are the `terminated` flag
and reward the environment returned for the recorded (time, state, action)
triple; every true flag sits at the last recorded index, so when a step
terminates before the cap the length is the first terminated step's index
plus one; and if no step terminated the length is exactly `max_step`.  The
hypothesis `htrunc` is the spec-modelled core environment's guarantee that
`truncated` is always false. -/
theorem create_episodes_spec (env : EnvModel) (policy : Nat → Nat) (p : ℚ)
    (explore : Nat → Nat → ℚ) (sampleOr : Nat → Nat → Nat)
    (max_step seed n_replay : Nat)
    (htrunc : ∀ t s a, (env.stepFn t s a).truncated = false)
    (i : Nat) (hi : i < n_replay) :
    (create env policy p explore sampleOr max_step seed n_replay).2.length = n_replay
    ∧ (create env policy p explore sampleOr max_step seed n_replay).2[i]?
        = some (replayEp env policy p explore sampleOr max_step seed i)
    ∧ (replayEp env policy p explore sampleOr max_step seed i).states.length
        = (replayEp env policy p explore sampleOr max_step seed i).actions.length
    ∧ (replayEp env policy p explore sampleOr max_step seed i).states.length
        = (replayEp env policy p explore sampleOr max_step seed i).rewards.length
    ∧ (replayEp env policy p explore sampleOr max_step seed i).states.length
        = (replayEp env policy p explore sampleOr max_step seed i).times.length
    ∧ (replayEp env policy p explore sampleOr max_step seed i).states.length
        = (replayFlags env policy p explore sampleOr max_step seed i).length
    ∧ (replayEp env policy p explore sampleOr max_step seed i).states.length
        ≤ max_step
    ∧ (∀ (j tj sj aj : Nat),
        (replayEp env policy p explore sampleOr max_step seed i).times[j]? = some tj →
        (replayEp env policy p explore sampleOr max_step seed i).states[j]? = some sj →
        (replayEp env policy p explore sampleOr max_step seed i).actions[j]? = some aj →
        (replayFlags env policy p explore sampleOr max_step seed i)[j]?
            = some (env.stepFn tj sj aj).terminated
        ∧ (replayEp env policy p explore sampleOr max_step seed i).rewards[j]?
            = some (env.stepFn tj sj aj).reward)
    ∧ (∀ j : Nat,
        (replayFlags env policy p explore sampleOr max_step seed i)[j]? = some true →
        j + 1 = (replayEp env policy p explore sampleOr max_step seed i).states.length)
    ∧ ((∀ b ∈ replayFlags env policy p explore sampleOr max_step seed i, b = false) →
        (replayEp env policy p explore sampleOr max_step seed i).states.length
          = max_step) := by
  obtain ⟨h1, h2, h3, h4, h5⟩ := replay_inv env policy p explore sampleOr max_step seed i
  refine ⟨?_, ?_, h1, h2, h3, h4,
    replayEp_len_le env policy p explore sampleOr max_step seed i, ?_, ?_,
    replay_all_false_len env policy p explore sampleOr max_step seed i⟩
  · rw [create_data_eq, List.length_map, List.length_range]
  · rw [create_data_eq]
    exact getElem?_range_map _ _ _ hi
  · intro j tj sj aj htj hsj haj
    obtain ⟨hf, hr⟩ := h5 j tj sj aj htj hsj haj
    rw [htrunc tj sj aj, Bool.or_false] at hf
    exact ⟨hf, hr⟩
  · intro j hj
    rw [h4]
    exact replay_flags_true_last env policy p explore sampleOr max_step seed i j hj

/-- A concrete environment for witnesses: every step terminates with
reward 1, never truncates, and `reset` returns state 0. -/
def exEnv : EnvModel where
  reset := fun _ => 0
  stepFn := fun _ _ _ => ⟨0, 1, true, false⟩

/-- A concrete policy for witnesses. -/
def exPolicy : Nat → Nat := fun _ => 0

/-- A concrete exploration-draw oracle for witnesses (always 0). -/
def exExplore : Nat → Nat → ℚ := fun _ _ => 0

/-- A concrete action-sampler oracle for witnesses. -/
def exSample : Nat → Nat → Nat := fun _ _ => 0

/-- C5 witness: at the concrete environment, with one replay of one step,
`create` records exactly one episode. -/
theorem create_episodes_spec_witness :
    (0 : Nat) < 1
    ∧ (create exEnv exPolicy 0 exExplore exSample 1 0 1).2.length = 1 :=
  ⟨by decide,
   (create_episodes_spec exEnv exPolicy 0 exExplore exSample 1 0 1
     (fun _ _ _ => rfl) 0 (by decide)).1⟩

/-- C6: in every replay of `create`, with `random_play_p = 0` each recorded
action is the policy's action for the recorded state of the same step, and
with `random_play_p = 1` each recorded action is the uniform sampler's
draw for the recorded step index.  The hypothesis `hexp` is the range of
`np.random.random()`: each draw lies in `[0, 1)`. -/
theorem create_actions_spec (env : EnvModel) (policy : Nat → Nat) (p : ℚ)
    (explore : Nat → Nat → ℚ) (sampleOr : Nat → Nat → Nat)
    (max_step seed n_replay : Nat)
    (hexp : ∀ i u, 0 ≤ explore i u ∧ explore i u < 1)
    (i : Nat) (hi : i < n_replay) :
    (create env policy p explore sampleOr max_step seed n_replay).2[i]?
        = some (replayEp env policy p explore sampleOr max_step seed i)
    ∧ (p = 0 →
        (replayEp env policy p explore sampleOr max_step seed i).actions
          = (replayEp env policy p explore sampleOr max_step seed i).states.map policy)
    ∧ (p = 1 →
        (replayEp env policy p explore sampleOr max_step seed i).actions
          = (replayEp env policy p explore sampleOr max_step seed i).times.map
              (sampleOr i)) := by
  refine ⟨?_, ?_, ?_⟩
  · rw [create_data_eq]
    exact getElem?_range_map _ _ _ hi
  · intro hp
    subst hp
    rw [replayEp, runReplay_eq_rolloutG]
    refine rolloutG_actions_fn env _ policy ?_ max_step 0 (env.reset seed)
      emptyEpisode [] rfl
    intro u st
    exact if_neg (not_lt.mpr (hexp i u).1)
  · intro hp
    subst hp
    rw [replayEp, runReplay_eq_rolloutG]
    refine rolloutG_actions_time env _ (sampleOr i) ?_ max_step 0 (env.reset seed)
      emptyEpisode [] rfl
    intro u st
    exact if_pos (hexp i u).2

/-- C6 witness: at the concrete environment with `random_play_p = 0`, the
recorded actions are the policy's actions for the recorded states. -/
theorem create_actions_spec_witness :
    (0 : Nat) < 1
    ∧ ((0 : ℚ) = 0 →
        (replayEp exEnv exPolicy 0 exExplore exSample 1 0 0).actions
          = (replayEp exEnv exPolicy 0 exExplore exSample 1 0 0).states.map exPolicy) :=
  ⟨by decide,
   (create_actions_spec exEnv exPolicy 0 exExplore exSample 1 0 1
     (fun _ _ => ⟨le_refl 0, by norm_num [exExplore]⟩) 0 (by decide)).2.1⟩

/-- C9: the `target_return` computed by `create` equals the sum of rewards
of the single expert rollout that always takes `policy[state]`, started
from `reset(seed)` and stopped at the first terminated or truncated step or
after `max_step` steps; and each replay starts from `reset` with that same
`seed` — its first recorded state is `reset(seed)`. -/
theorem create_target_return_spec (env : EnvModel) (policy : Nat → Nat) (p : ℚ)
    (explore : Nat → Nat → ℚ) (sampleOr : Nat → Nat → Nat)
    (max_step seed n_replay : Nat)
    (hstep : 1 ≤ max_step) (i : Nat) (hi : i < n_replay) :
    (create env policy p explore sampleOr max_step seed n_replay).1.target_return
      = (expertRewards env policy max_step 0 (env.reset seed)).sum
    ∧ (create env policy p explore sampleOr max_step seed n_replay).2[i]?
        = some (replayEp env policy p explore sampleOr max_step seed i)
    ∧ (replayEp env policy p explore sampleOr max_step seed i).states.head?
        = some (env.reset seed) := by
  refine ⟨?_, ?_, ?_⟩
  · have h : (create env policy p explore sampleOr max_step seed n_replay).1.target_return
        = expertLoop env policy max_step 0 (env.reset seed) 0 := rfl
    rw [h, expertLoop_eq_sum, zero_add]
  · rw [create_data_eq]
    exact getElem?_range_map _ _ _ hi
  · obtain ⟨k, rfl⟩ : ∃ k, max_step = k + 1 :=
      ⟨max_step - 1, (Nat.succ_pred_eq_of_pos hstep).symm⟩
    rw [replayEp, runReplay_eq_rolloutG]
    exact rolloutG_head env _ k 0 (env.reset seed) []

/-- C9 witness: at the concrete environment the computed `target_return`
equals the expert rollout's reward sum. -/
theorem create_target_return_spec_witness :
    (1 : Nat) ≤ 1
    ∧ (create exEnv exPolicy 0 exExplore exSample 1 0 1).1.target_return
        = (expertRewards exEnv exPolicy 1 0 (exEnv.reset 0)).sum :=
  ⟨by decide,
   (create_target_return_spec exEnv exPolicy 0 exExplore exSample 1 0 1
     (by decide) 0 (by decide)).1⟩

theorem replayT_succ_eq (env : EnvModel) (policy : Nat → Nat) (p : ℚ)
    (explore : Nat → Nat → ℚ) (sampleOr : Nat → Nat → Nat) (k seed i : Nat) :
    replayT env policy p explore sampleOr (k + 1) seed i + 1
      = (replayEp env policy p explore sampleOr (k + 1) seed i).states.length := by
  rw [replayT, replayEp, runReplay_eq_rolloutG]
  have := rolloutG_t env
    (fun u st => if explore i u < p then sampleOr i u else policy st)
    k 0 (env.reset seed) emptyEpisode []
  simpa [emptyEpisode] using this

/-- C10: after `create`'s replay loop (with at least one replay and at
least one step allowed), `data_min_step` is the minimum over the recorded
episodes of the last recorded step index — the episode length minus one —
and `data_max_step` is the maximum of that index; in particular
`data_min_step ≤ data_max_step` in the written metadata. -/
theorem create_min_max_spec (env : EnvModel) (policy : Nat → Nat) (p : ℚ)
    (explore : Nat → Nat → ℚ) (sampleOr : Nat → Nat → Nat)
    (max_step seed n_replay : Nat)
    (hrep : 1 ≤ n_replay) (hstep : 1 ≤ max_step) :
    ((create env policy p explore sampleOr max_step seed n_replay).1.data_min_step
        ∈ (create env policy p explore sampleOr max_step seed n_replay).2.map
            (fun ep => ep.states.length - 1))
    ∧ (∀ x ∈ (create env policy p explore sampleOr max_step seed n_replay).2.map
          (fun ep => ep.states.length - 1),
        (create env policy p explore sampleOr max_step seed n_replay).1.data_min_step ≤ x)
    ∧ ((create env policy p explore sampleOr max_step seed n_replay).1.data_max_step
        ∈ (create env policy p explore sampleOr max_step seed n_replay).2.map
            (fun ep => ep.states.length - 1))
    ∧ (∀ x ∈ (create env policy p explore sampleOr max_step seed n_replay).2.map
          (fun ep => ep.states.length - 1),
        x ≤ (create env policy p explore sampleOr max_step seed n_replay).1.data_max_step)
    ∧ (create env policy p explore sampleOr max_step seed n_replay).1.data_min_step
        ≤ (create env policy p explore sampleOr max_step seed n_replay).1.data_max_step := by
  obtain ⟨k, rfl⟩ : ∃ k, max_step = k + 1 :=
    ⟨max_step - 1, (Nat.succ_pred_eq_of_pos hstep).symm⟩
  have hmin : (create env policy p explore sampleOr (k + 1) seed n_replay).1.data_min_step
      = ((List.range n_replay).map
          (replayT env policy p explore sampleOr (k + 1) seed)).foldl
          (fun mn x => if x < mn then x else mn) (k + 1) := by
    have h : (create env policy p explore sampleOr (k + 1) seed n_replay).1.data_min_step
        = (replayPhase env policy p explore sampleOr (k + 1) seed n_replay).2.1 := rfl
    rw [h, replayPhase_eq]
    exact (List.foldl_map (replayT env policy p explore sampleOr (k + 1) seed)
      (fun mn x => if x < mn then x else mn) (List.range n_replay) (k + 1)).symm
  have hmax : (create env policy p explore sampleOr (k + 1) seed n_replay).1.data_max_step
      = ((List.range n_replay).map
          (replayT env policy p explore sampleOr (k + 1) seed)).foldl
          (fun mx x => if x > mx then x else mx) 0 := by
    have h : (create env policy p explore sampleOr (k + 1) seed n_replay).1.data_max_step
        = (replayPhase env policy p explore sampleOr (k + 1) seed n_replay).2.2 := rfl
    rw [h, replayPhase_eq]
    exact (List.foldl_map (replayT env policy p explore sampleOr (k + 1) seed)
      (fun mx x => if x > mx then x else mx) (List.range n_replay) 0).symm
  have hlt : ∀ x ∈ (List.range n_replay).map
      (replayT env policy p explore sampleOr (k + 1) seed), x < k + 1 := by
    intro x hx
    obtain ⟨i, _, rfl⟩ := List.mem_map.mp hx
    have h1 := replayT_succ_eq env policy p explore sampleOr k seed i
    have h2 := replayEp_len_le env policy p explore sampleOr (k + 1) seed i
    omega
  have hne : (List.range n_replay).map
      (replayT env policy p explore sampleOr (k + 1) seed) ≠ [] := by
    intro h
    have := congrArg List.length h
    rw [List.length_map, List.length_range] at this
    simp at this
    omega
  have hTSeq : (create env policy p explore sampleOr (k + 1) seed n_replay).2.map
      (fun ep => ep.states.length - 1)
      = (List.range n_replay).map (replayT env policy p explore sampleOr (k + 1) seed) := by
    rw [create_data_eq, List.map_map]
    apply List.map_congr_left
    intro i _
    have := replayT_succ_eq env policy p explore sampleOr k seed i
    show (replayEp env policy p explore sampleOr (k + 1) seed i).states.length - 1
      = replayT env policy p explore sampleOr (k + 1) seed i
    omega
  obtain ⟨hminmem, hminle⟩ := foldl_min_spec _ (k + 1) hlt hne
  obtain ⟨hmaxmem, hmaxge⟩ := foldl_max_spec _ hne
  rw [hTSeq, hmin, hmax]
  exact ⟨hminmem, fun x hx => hminle x hx,
         hmaxmem, fun x hx => hmaxge x hx,
         hmaxge _ hminmem⟩

/-- C10 witness: the characterization holds at the concrete environment
with one replay of one step. -/
theorem create_min_max_spec_witness :
    (1 : Nat) ≤ 1
    ∧ (create exEnv exPolicy 0 exExplore exSample 1 0 1).1.data_min_step
        ≤ (create exEnv exPolicy 0 exExplore exSample 1 0 1).1.data_max_step :=
  ⟨by decide,
   (create_min_max_spec exEnv exPolicy 0 exExplore exSample 1 0 1
     (by decide) (by decide)).2.2.2.2⟩

end MiniRL
